import Mathlib

/-!
# Verification of the CnosDB query/schema core

A shallow embedding, in Lean 4, of the parts of the CnosDB repository that the
verified claims are about:

* `common/models/src/schema.rs` — table schemas (`TskvTableSchema`,
  `TableColumn`, `ColumnType`), the physical (Arrow) data-type conversions,
  and the permissive `Duration` text constructor;
* `query_server/spi/src/query/mod.rs` — the `QueryError` taxonomy;
* `query_server/spi/src/query/ast.rs` — statement representations;
* `query_server/query/src/dispatcher/manager.rs` — the simple query
  dispatcher, its builder, and its admission control;
* `query_server/query/src/execution/ddl/mod.rs` — the DDL task factory.

Rust `HashMap`s are modelled as association lists with last-write-wins
insertion; machine integers (`u64`, `usize`, `u32`) are modelled as `Nat`
(no arithmetic in the modelled code can overflow or is checked explicitly);
fallible code returns `Option`/`Except`.  Types that the modelled code only
passes around — trait objects and types defined outside the files above —
are modelled as opaque placeholder structures.
-/

namespace CnosDB

/-! ## Association-list model of `std::collections::HashMap`

The modelled code uses a `HashMap` only through `get`, `insert` (via
`collect`) and `entry(..).or_insert_with(..)`.  An association list with
in-place overwrite of an existing key models exactly that interface. -/

/-- `HashMap::get`: the value of the first (hence only) binding of `k`. -/
def hmGet {κ ν : Type} [DecidableEq κ] (m : List (κ × ν)) (k : κ) : Option ν :=
  match m with
  | [] => none
  | (k₀, v₀) :: rest => if k₀ = k then some v₀ else hmGet rest k

/-- `HashMap::insert`: overwrite the binding of `k` if present, else add it. -/
def hmInsert {κ ν : Type} [DecidableEq κ] (m : List (κ × ν)) (k : κ) (v : ν) :
    List (κ × ν) :=
  match m with
  | [] => [(k, v)]
  | (k₀, v₀) :: rest => if k₀ = k then (k, v) :: rest else (k₀, v₀) :: hmInsert rest k v

theorem hmGet_hmInsert_self {κ ν : Type} [DecidableEq κ] (m : List (κ × ν)) (k : κ) (v : ν) :
    hmGet (hmInsert m k v) k = some v := by
  induction m with
  | nil => simp [hmGet, hmInsert]
  | cons p rest ih =>
    obtain ⟨k₀, v₀⟩ := p
    by_cases h : k₀ = k <;> simp [hmGet, hmInsert, h, ih]

theorem hmGet_hmInsert_ne {κ ν : Type} [DecidableEq κ] (m : List (κ × ν)) (k k₁ : κ) (v : ν)
    (hne : k₁ ≠ k) : hmGet (hmInsert m k v) k₁ = hmGet m k₁ := by
  have hne' : ¬k = k₁ := fun h => hne h.symm
  induction m with
  | nil => simp [hmGet, hmInsert, hne']
  | cons p rest ih =>
    obtain ⟨k₀, v₀⟩ := p
    by_cases h : k₀ = k
    · subst h
      simp [hmGet, hmInsert, hne']
    · simp [hmGet, hmInsert, h, ih]

theorem hmGet_hmInsert_isSome {κ ν : Type} [DecidableEq κ] (m : List (κ × ν)) (k k₁ : κ)
    (v : ν) (h : (hmGet m k₁).isSome) : (hmGet (hmInsert m k v) k₁).isSome := by
  by_cases hk : k₁ = k
  · subst hk; simp [hmGet_hmInsert_self]
  · rwa [hmGet_hmInsert_ne m k k₁ v hk]

/-- Inserting a key absent from `m` appends the binding at the end. -/
theorem hmInsert_absent {κ ν : Type} [DecidableEq κ] (m : List (κ × ν)) (k : κ) (v : ν)
    (h : hmGet m k = none) : hmInsert m k v = m ++ [(k, v)] := by
  induction m with
  | nil => simp [hmInsert]
  | cons p rest ih =>
    obtain ⟨k₀, v₀⟩ := p
    by_cases hk : k₀ = k
    · simp [hmGet, hk] at h
    · simp [hmGet, hk] at h
      simp [hmInsert, hk, ih h]

/-! ## `common/models/src/schema.rs` — the data model -/

/-- `models::ValueType` (declared in `common/models/src/lib.rs`, outside the
staged files).  Modelled from the spec: `ValueType ∈ {Float, Integer,
Unsigned, Boolean, String, Unknown}`. -/
inductive ValueType : Type
  | Float
  | Integer
  | Unsigned
  | Boolean
  | String
  | Unknown
deriving DecidableEq, Repr

/-- `models::codec::Encoding` (declared outside the staged files); the schema
code only stores and copies encodings, so it is modelled opaquely. -/
structure Encoding : Type where
  code : Nat
deriving DecidableEq, Repr

def Encoding.Default : Encoding := ⟨0⟩

/-- `ColumnType` from `schema.rs`. -/
inductive ColumnType : Type
  | Tag
  | Time
  | Field (v : ValueType)
deriving DecidableEq, Repr

def ColumnType.is_tag : ColumnType → Bool
  | .Tag => true
  | _ => false

def ColumnType.is_time : ColumnType → Bool
  | .Time => true
  | _ => false

def ColumnType.is_field : ColumnType → Bool
  | .Field _ => true
  | _ => false

/-- `arrow::datatypes::TimeUnit` (the variants are external; only
`Nanosecond` is used by the modelled code). -/
inductive TimeUnit : Type
  | Second
  | Millisecond
  | Microsecond
  | Nanosecond
deriving DecidableEq, Repr

/-- `arrow::datatypes::DataType`, restricted to the variants the conversions
in `schema.rs` produce or recognize; every other variant of the real type
falls into the same catch-all arm as `Timestamp`/`Null` do here. -/
inductive ArrowDataType : Type
  | Null
  | Boolean
  | Int64
  | UInt64
  | Float64
  | Utf8
  | Timestamp (unit : TimeUnit) (tz : Option String)
deriving DecidableEq, Repr

/-- `impl From<ColumnType> for ArrowDataType` (schema.rs:314-327).  The Rust
catch-all `_ => Self::Null` is reached exactly for `Field(Unknown)`. -/
def columnTypeToArrowDataType : ColumnType → ArrowDataType
  | .Tag => .Utf8
  | .Time => .Timestamp .Nanosecond none
  | .Field .Float => .Float64
  | .Field .Integer => .Int64
  | .Field .Unsigned => .UInt64
  | .Field .String => .Utf8
  | .Field .Boolean => .Boolean
  | .Field .Unknown => .Null

/-- `impl TryFrom<ArrowDataType> for ColumnType` (schema.rs:329-342). -/
def arrowDataTypeToColumnType : ArrowDataType → Except String ColumnType
  | .Float64 => .ok (.Field .Float)
  | .Int64 => .ok (.Field .Integer)
  | .UInt64 => .ok (.Field .Unsigned)
  | .Utf8 => .ok (.Field .String)
  | .Boolean => .ok (.Field .Boolean)
  | _ => .error ("Error field type not supported")

/-- `TableColumn` from `schema.rs`.  `ColumnId` is `u32`, modelled as `Nat`. -/
structure TableColumn : Type where
  id : Nat
  name : String
  column_type : ColumnType
  encoding : Encoding
deriving DecidableEq, Repr

/-- `TskvTableSchema` from `schema.rs`.  `columns_index` is the
`HashMap<String, usize>` mapping a column name to its position. -/
structure TskvTableSchema : Type where
  db : String
  name : String
  schema_id : Nat
  columns : List TableColumn
  columns_index : List (String × Nat)
deriving DecidableEq, Repr

/-- The index built by `TskvTableSchema::new`'s
`columns.iter().enumerate().map(|(idx, e)| (e.name.clone(), idx)).collect()`:
insert `(key a, i), (key b, i+1), …` along the list, later bindings
overwriting earlier ones (generic in the key so the same model also serves
`fields_id`). -/
def indexByFrom {α κ : Type} [DecidableEq κ] (key : α → κ)
    (m : List (κ × Nat)) (i : Nat) : List α → List (κ × Nat)
  | [] => m
  | a :: rest => indexByFrom key (hmInsert m (key a) i) (i + 1) rest

/-- `TskvTableSchema::new` (schema.rs:145-159). -/
def TskvTableSchema.new (db name : String) (columns : List TableColumn) :
    TskvTableSchema :=
  { db := db
    name := name
    schema_id := 0
    columns := columns
    columns_index := indexByFrom TableColumn.name [] 0 columns }

/-- `TskvTableSchema::add_column` (schema.rs:163-170): `entry(name)` — if the
name is absent, push the column and bind the name to the new last position;
otherwise do nothing. -/
def TskvTableSchema.add_column (s : TskvTableSchema) (col : TableColumn) :
    TskvTableSchema :=
  match hmGet s.columns_index col.name with
  | some _ => s
  | none =>
    { s with
      columns := s.columns ++ [col]
      columns_index := hmInsert s.columns_index col.name s.columns.length }

/-- `TskvTableSchema::column` (schema.rs:173-177).  The source indexes with
`get_unchecked(*idx)`; the safe `get?` stands in for it, and the in-bounds
claim below shows the checked and unchecked reads agree on schemas built by
the public constructors. -/
def TskvTableSchema.column (s : TskvTableSchema) (name : String) :
    Option TableColumn :=
  (hmGet s.columns_index name).bind fun idx => s.columns.get? idx

/-- `TskvTableSchema::column_index` (schema.rs:180-182). -/
def TskvTableSchema.column_index (s : TskvTableSchema) (name : String) : Option Nat :=
  hmGet s.columns_index name

/-- `TskvTableSchema::column_by_index` (schema.rs:185-187). -/
def TskvTableSchema.column_by_index (s : TskvTableSchema) (idx : Nat) :
    Option TableColumn :=
  s.columns.get? idx

/-- The filter used by `fields`, `field_num` and `fields_id`:
`column_type != Tag && column_type != Time`. -/
def isFieldColumn (c : TableColumn) : Bool :=
  decide (c.column_type ≠ ColumnType.Tag) && decide (c.column_type ≠ ColumnType.Time)

/-- `TskvTableSchema::fields` (schema.rs:193-204): skip `Time` and `Tag`. -/
def TskvTableSchema.fields (s : TskvTableSchema) : List TableColumn :=
  s.columns.filter isFieldColumn

/-- `TskvTableSchema::field_num` (schema.rs:207-215): count the columns that
are neither `Tag` nor `Time`. -/
def TskvTableSchema.field_num (s : TskvTableSchema) : Nat :=
  s.columns.countP isFieldColumn

/-- `TskvTableSchema::fields_id` (schema.rs:218-231): collect the ids of the
non-`Tag`, non-`Time` columns, `sort()` them ascending, then
`map.insert(id, i)` along the sorted ids. -/
def TskvTableSchema.fields_id (s : TskvTableSchema) : List (Nat × Nat) :=
  let ans := (s.columns.filter isFieldColumn).map TableColumn.id
  let sorted := List.insertionSort (· ≤ ·) ans
  indexByFrom id [] 0 sorted

/-- A sequence of `add_column` calls. -/
def TskvTableSchema.addColumns (s : TskvTableSchema) (cols : List TableColumn) :
    TskvTableSchema :=
  cols.foldl TskvTableSchema.add_column s

/-! ## `Duration` (schema.rs:484-540) -/

inductive DurationUnit : Type
  | Minutes
  | Hour
  | Day
deriving DecidableEq, Repr

structure Duration : Type where
  time_num : Nat
  unit : DurationUnit
deriving DecidableEq, Repr

/-- The numeric value of a digit string (most significant first). -/
def digitsToNat (ds : List Char) : Nat :=
  ds.foldl (fun acc c => acc * 10 + (c.toNat - ('0').toNat)) 0

/-- Strip one leading `+`, as `u64::from_str` does. -/
def stripPlus (cs : List Char) : List Char :=
  match cs with
  | c :: rest => if c = '+' then rest else cs
  | [] => cs

/-- Rust's `str::parse::<u64>()`: an optional leading `+`, then one or more
ASCII digits, with the value in `u64` range; anything else is an error.
Strings are modelled as their character sequences (the inputs the schema code
feeds this are ASCII, where byte and character indexing agree). -/
def parseU64 (cs : List Char) : Option Nat :=
  if !(stripPlus cs).isEmpty && (stripPlus cs).all Char.isDigit
      && decide (digitsToNat (stripPlus cs) < 2 ^ 64) then
    some (digitsToNat (stripPlus cs))
  else
    none

/-- The outcome of running a Rust function that can panic: its return value,
or a panic. -/
inductive RunResult (α : Type) : Type
  | ok (val : α)
  | panicked
deriving DecidableEq, Repr

/-- `Duration::new` (schema.rs:507-540).  Strings are modelled as their
character sequences; `text.len()` in the source is the UTF-8 **byte** length.
After the whole-text parse fails, the source slices `&text[..len - 1]` and
`&text[len - 1..]`: the byte offset `len - 1` is a character boundary exactly
when the last character is one byte wide, and otherwise the slice panics.
So: empty text is rejected; a bare integer defaults to days; otherwise, if
the last character is not a single UTF-8 byte the function panics, else the
front characters are parsed as the count and the uppercased last character
is matched as the unit. -/
def Duration.new (text : String) : RunResult (Option Duration) :=
  if text.toList.isEmpty then .ok none
  else
    match parseU64 text.toList with
    | some v => .ok (some ⟨v, DurationUnit.Day⟩)
    | none =>
      match text.toList.getLast? with
      | none => .ok none
      | some u =>
        if u.utf8Size ≠ 1 then .panicked
        else
          match parseU64 text.toList.dropLast with
          | none => .ok none
          | some time_num =>
            if u.toUpper = 'D' then .ok (some ⟨time_num, DurationUnit.Day⟩)
            else if u.toUpper = 'H' then .ok (some ⟨time_num, DurationUnit.Hour⟩)
            else if u.toUpper = 'M' then .ok (some ⟨time_num, DurationUnit.Minutes⟩)
            else .ok none

/-! ## `query_server/spi/src/query/mod.rs` — the error taxonomy

The wrapped error payloads (`LogicalPlannerError`, `ExecutionError` are
declared in spi modules outside the staged files; `DataFusionError` and
`ParserError` are external crates) are modelled as opaque carriers. -/

structure LogicalPlannerError : Type where
  err : String
deriving DecidableEq, Repr

structure DataFusionError : Type where
  err : String
deriving DecidableEq, Repr

structure ParserError : Type where
  err : String
deriving DecidableEq, Repr

structure ExecutionError : Type where
  err : String
deriving DecidableEq, Repr

/-- `QueryError` (spi/src/query/mod.rs:21-53). -/
inductive QueryError : Type
  | BuildQueryDispatcher (err : String)
  | LogicalPlanner (source : LogicalPlannerError)
  | LogicalOptimize (source : DataFusionError)
  | PhysicalPlaner (source : DataFusionError)
  | Parser (source : ParserError)
  | Analyzer (err : String)
  | Optimizer (source : DataFusionError)
  | Schedule (source : DataFusionError)
  | Execution (source : ExecutionError)
  | RequestLimit
deriving DecidableEq, Repr

/-! ## `query_server/spi/src/query/ast.rs` — statement representations

The dispatcher only clones statements and hands them to the planner, so the
AST payload types that come from external crates (`sqlparser`,
`datafusion`) are modelled as opaque placeholders; the payload structures
declared in `ast.rs` itself are carried over. -/

/-- External `sqlparser::ast::Statement`, modelled opaquely. -/
structure SqlStatementAst : Type where
  id : Nat
deriving DecidableEq, Repr

/-- External `datafusion::sql::parser::CreateExternalTable`, modelled opaquely. -/
structure DfCreateExternalTable : Type where
  id : Nat
deriving DecidableEq, Repr

/-- External `sqlparser::ast::Ident`, modelled by its string value. -/
structure Ident : Type where
  value : String
deriving DecidableEq, Repr

/-- External `sqlparser::ast::ObjectName`: a dotted chain of identifiers. -/
structure ObjectName : Type where
  parts : List Ident
deriving DecidableEq, Repr

/-- External `sqlparser::ast::DataType`, modelled opaquely. -/
structure SqlDataType : Type where
  id : Nat
deriving DecidableEq, Repr

/-- `ObjectType` (ast.rs:95-100). -/
inductive AstObjectType : Type
  | Table
  | Database
deriving DecidableEq, Repr

/-- `ColumnOption` (ast.rs:58-64). -/
structure AstColumnOption : Type where
  name : Ident
  is_tag : Bool
  data_type : SqlDataType
  encoding : Encoding
deriving DecidableEq, Repr

/-- `DatabaseOptions` (ast.rs:66-78). -/
structure AstDatabaseOptions : Type where
  ttl : Option String
  shard_num : Option Nat
  vnode_duration : Option String
  replica : Option Nat
  precision : Option String
deriving DecidableEq, Repr

/-- `CreateTable` (ast.rs:51-56). -/
structure AstCreateTable : Type where
  name : ObjectName
  if_not_exists : Bool
  columns : List AstColumnOption
deriving DecidableEq, Repr

/-- `CreateDatabase` (ast.rs:45-50). -/
structure AstCreateDatabase : Type where
  name : ObjectName
  if_not_exists : Bool
  options : AstDatabaseOptions
deriving DecidableEq, Repr

/-- `CreateUser` (ast.rs:43-44). -/
structure AstCreateUser : Type
deriving DecidableEq, Repr

/-- `DropObject` (ast.rs:28-33). -/
structure AstDropObject : Type where
  object_name : ObjectName
  if_exist : Bool
  obj_type : AstObjectType
deriving DecidableEq, Repr

/-- `DropUser` (ast.rs:41-42). -/
structure AstDropUser : Type
deriving DecidableEq, Repr

/-- `DescribeTable` (ast.rs:80-83). -/
structure AstDescribeTable : Type where
  table_name : ObjectName
deriving DecidableEq, Repr

/-- `DescribeDatabase` (ast.rs:85-88). -/
structure AstDescribeDatabase : Type where
  database_name : ObjectName
deriving DecidableEq, Repr

/-- `ExtStatement` (ast.rs:8-26). -/
inductive ExtStatement : Type
  | SqlStatement (s : SqlStatementAst)
  | CreateExternalTable (c : DfCreateExternalTable)
  | CreateTable (c : AstCreateTable)
  | CreateDatabase (c : AstCreateDatabase)
  | CreateUser (c : AstCreateUser)
  | Drop (d : AstDropObject)
  | DropUser (d : AstDropUser)
  | DescribeTable (d : AstDescribeTable)
  | DescribeDatabase (d : AstDescribeDatabase)
  | ShowDatabases
  | ShowTables (t : Option ObjectName)
deriving DecidableEq, Repr

/-! ## `query_server/query/src/dispatcher/manager.rs` — the dispatcher

Collaborator trait objects whose implementations live outside the staged
files are modelled as records of uninterpreted functions: planning and
downstream execution are arbitrary fallible functions, which is exactly what
the dispatcher code may assume about them. -/

/-- `Output` (spi::query::execution, outside the staged files): modelled
opaquely; the dispatcher only collects outputs into the result vector. -/
structure Output : Type where
  id : Nat
deriving DecidableEq, Repr

/-- `LogicalPlan` (datafusion), modelled opaquely. -/
structure LogicalPlan : Type where
  id : Nat
deriving DecidableEq, Repr

/-- `IsiphoSessionCtxFactory` (spi::query::session, outside the staged
files), modelled opaquely: session construction is infallible and the
dispatcher only threads the session through. -/
structure IsiphoSessionCtxFactory : Type where
  id : Nat
deriving DecidableEq, Repr

/-- The `dyn Parser` collaborator (the trait is declared in
spi::query::parser, outside the staged files).  Modelled from the spec: a
parser turns the query text into the ordered statement list or fails with a
(wrapped) parse error. -/
structure Parser : Type where
  parse : String → Except QueryError (List ExtStatement)

/-- The `MetaDataRef` catalog view together with the
`DefaultLogicalPlanner` built over it (metadata and planner implementations
are outside the staged files).  Modelled from the spec: planning a statement
either produces a logical plan or fails with a planner error. -/
structure MetaDataRef : Type where
  planStmt : ExtStatement → Except LogicalPlannerError LogicalPlan

/-- The `Scheduler` handle (datafusion), modelled opaquely. -/
structure Scheduler : Type where
  id : Nat
deriving DecidableEq, Repr

/-- The `dyn Optimizer` collaborator (spi::query::optimizer, outside the
staged files).  Modelled from the spec: the optimize/schedule/execute
pipeline that `SqlQueryExecutionFactory` drives from a logical plan is an
uninterpreted fallible function of the plan and the scheduler handle. -/
structure Optimizer : Type where
  run : LogicalPlan → Scheduler → Except QueryError Output

/-- `SqlQueryExecutionFactory` (execution::factory, outside the staged
files): built by `build()` from the optimizer and scheduler. -/
structure SqlQueryExecutionFactory : Type where
  optimizer : Optimizer
  scheduler : Scheduler

/-- `create_query_execution(plan, ..).start()`: run the downstream pipeline. -/
def SqlQueryExecutionFactory.createAndStart (f : SqlQueryExecutionFactory)
    (plan : LogicalPlan) : Except QueryError Output :=
  f.optimizer.run plan f.scheduler

/-- `Query` (spi::service::protocol): the dispatcher reads `content()` (the
query text) and clones `context()`; the context is irrelevant here. -/
structure Query : Type where
  content : String
deriving DecidableEq, Repr

/-- `SimpleQueryDispatcher` (manager.rs:32-43).  The
`queries_limit_semaphore` is a counting semaphore created with
`Semaphore::new(queries_limit)`; `queriesLimit` records its total number of
permits. -/
structure SimpleQueryDispatcher : Type where
  metadata : MetaDataRef
  session_factory : IsiphoSessionCtxFactory
  parser : Parser
  query_execution_factory : SqlQueryExecutionFactory
  queriesLimit : Nat

/-- `SimpleQueryDispatcher::execute_statement` (manager.rs:113-132): plan the
statement (wrapping a planner failure with `.context(LogicalPlannerSnafu)`),
then build and start a query execution.  The `QueryStateMachine` lifecycle
notifications (`begin_analyze` / `end_analyze`) carry no data and are not
modelled. -/
def SimpleQueryDispatcher.execute_statement (d : SimpleQueryDispatcher)
    (stmt : ExtStatement) : Except QueryError Output :=
  match d.metadata.planStmt stmt with
  | .error e => .error (QueryError.LogicalPlanner e)
  | .ok plan => d.query_execution_factory.createAndStart plan

/-- The observable steps `execute_query` takes after admission, used to state
that a rejected call does no work and that statements after a failing one are
never executed. -/
inductive QueryEvent : Type
  | sessionCreated
  | parseAttempted
  | statementExecuted (idx : Nat)
deriving DecidableEq, Repr

/-- The index a `statementExecuted` event carries. -/
def QueryEvent.stmtIdx : QueryEvent → Option Nat
  | .statementExecuted i => some i
  | _ => none

/-- The `for stmt in statements.iter()` loop of `execute_query`
(manager.rs:89-102): execute the statements in order, pushing each output,
and abort on the first error (the `?` operator), discarding the outputs
already produced.  `idx` numbers the statements for the event trace. -/
def runStatements (d : SimpleQueryDispatcher) (stmts : List ExtStatement)
    (idx : Nat) : Except QueryError (List Output) × List QueryEvent :=
  match stmts with
  | [] => (.ok [], [])
  | s :: rest =>
    match d.execute_statement s with
    | .error e => (.error e, [QueryEvent.statementExecuted idx])
    | .ok o =>
      (match (runStatements d rest (idx + 1)).1 with
       | .error e => .error e
       | .ok os => .ok (o :: os),
       QueryEvent.statementExecuted idx :: (runStatements d rest (idx + 1)).2)

/-- `SimpleQueryDispatcher::execute_query` (manager.rs:63-105).
`availablePermits` is the number of free permits of the admission semaphore
at entry (always at most `queriesLimit`); `try_acquire` fails with
`TryAcquireError::NoPermits` exactly when it is zero (the semaphore is never
closed, so the `panic!` arm for `Closed` is unreachable).  On rejection the
dispatcher returns `RequestLimit` before any session construction, parsing
or statement execution — hence the empty event trace. -/
def SimpleQueryDispatcher.execute_query (d : SimpleQueryDispatcher)
    (availablePermits : Nat) (query : Query) :
    Except QueryError (List Output) × List QueryEvent :=
  if availablePermits = 0 then
    (.error QueryError.RequestLimit, [])
  else
    match d.parser.parse query.content with
    | .error e => (.error e, [QueryEvent.sessionCreated, QueryEvent.parseAttempted])
    | .ok stmts =>
      ((runStatements d stmts 0).1,
       QueryEvent.sessionCreated :: QueryEvent.parseAttempted :: (runStatements d stmts 0).2)

/-- `SimpleQueryDispatcherBuilder` (manager.rs:134-145).  `#[derive(Default)]`
gives every collaborator `None` and `queries_limit` the `usize` default `0`. -/
structure SimpleQueryDispatcherBuilder : Type where
  metadata : Option MetaDataRef := none
  session_factory : Option IsiphoSessionCtxFactory := none
  parser : Option Parser := none
  optimizer : Option Optimizer := none
  scheduler : Option Scheduler := none
  queries_limit : Nat := 0

/-- `SimpleQueryDispatcherBuilder::default()`. -/
def SimpleQueryDispatcherBuilder.default : SimpleQueryDispatcherBuilder := {}

def SimpleQueryDispatcherBuilder.with_metadata (b : SimpleQueryDispatcherBuilder)
    (meta : MetaDataRef) : SimpleQueryDispatcherBuilder :=
  { b with metadata := some meta }

def SimpleQueryDispatcherBuilder.with_session_factory
    (b : SimpleQueryDispatcherBuilder) (session_factory : IsiphoSessionCtxFactory) :
    SimpleQueryDispatcherBuilder :=
  { b with session_factory := some session_factory }

def SimpleQueryDispatcherBuilder.withParser (b : SimpleQueryDispatcherBuilder)
    (p : Parser) : SimpleQueryDispatcherBuilder :=
  { b with parser := some p }

def SimpleQueryDispatcherBuilder.with_optimizer (b : SimpleQueryDispatcherBuilder)
    (o : Optimizer) : SimpleQueryDispatcherBuilder :=
  { b with optimizer := some o }

def SimpleQueryDispatcherBuilder.with_scheduler (b : SimpleQueryDispatcherBuilder)
    (s : Scheduler) : SimpleQueryDispatcherBuilder :=
  { b with scheduler := some s }

/-- `with_queries_limit(limit: u32)` (manager.rs:173-176). -/
def SimpleQueryDispatcherBuilder.with_queries_limit (b : SimpleQueryDispatcherBuilder)
    (limit : Nat) : SimpleQueryDispatcherBuilder :=
  { b with queries_limit := limit }

/-- `SimpleQueryDispatcherBuilder::build` (manager.rs:178-209): unwrap each
required collaborator in order (metadata, session_factory, parser, optimizer,
scheduler), failing with `BuildQueryDispatcher` naming the first missing one;
then assemble the execution factory and the admission semaphore. -/
def SimpleQueryDispatcherBuilder.build (b : SimpleQueryDispatcherBuilder) :
    Except QueryError SimpleQueryDispatcher :=
  match b.metadata with
  | none => .error (QueryError.BuildQueryDispatcher ("lost of metadata"))
  | some metadata =>
  match b.session_factory with
  | none => .error (QueryError.BuildQueryDispatcher ("lost of session_factory"))
  | some session_factory =>
  match b.parser with
  | none => .error (QueryError.BuildQueryDispatcher ("lost of parser"))
  | some p =>
  match b.optimizer with
  | none => .error (QueryError.BuildQueryDispatcher ("lost of optimizer"))
  | some optimizer =>
  match b.scheduler with
  | none => .error (QueryError.BuildQueryDispatcher ("lost of scheduler"))
  | some scheduler =>
    .ok
      { metadata := metadata
        session_factory := session_factory
        parser := p
        query_execution_factory := ⟨optimizer, scheduler⟩
        queriesLimit := b.queries_limit }

/-! ## `query_server/query/src/execution/ddl/mod.rs` — the DDL task factory

`DDLPlan` is declared in spi::query::logical_planner, outside the staged
files.  Modelled from the spec: eight administrative plan variants, each
carrying its sub-plan (the sub-plan types are opaque here; the factory only
clones them into the task). -/

structure CreateExternalTablePlan : Type where
  id : Nat
deriving DecidableEq, Repr

structure DropPlan : Type where
  id : Nat
deriving DecidableEq, Repr

structure CreateTablePlan : Type where
  id : Nat
deriving DecidableEq, Repr

structure CreateDatabasePlan : Type where
  id : Nat
deriving DecidableEq, Repr

structure DescribeDatabasePlan : Type where
  id : Nat
deriving DecidableEq, Repr

structure DescribeTablePlan : Type where
  id : Nat
deriving DecidableEq, Repr

structure ShowTablesPlan : Type where
  id : Nat
deriving DecidableEq, Repr

/-- Modelled from the spec: `DDLPlan` (spi::query::logical_planner, outside
the staged files) — the eight administrative plan variants matched by
`create_task`. -/
inductive DDLPlan : Type
  | CreateExternalTable (sub_plan : CreateExternalTablePlan)
  | Drop (sub_plan : DropPlan)
  | CreateTable (sub_plan : CreateTablePlan)
  | CreateDatabase (sub_plan : CreateDatabasePlan)
  | DescribeDatabase (sub_plan : DescribeDatabasePlan)
  | DescribeTable (sub_plan : DescribeTablePlan)
  | ShowTables (sub_plan : ShowTablesPlan)
  | ShowDatabases
deriving DecidableEq, Repr

/-- The `Box<dyn DDLDefinitionTask>` values `create_task` can construct: one
task type per DDL operation (each task struct lives in its own submodule and
stores the cloned sub-plan). -/
inductive DDLTask : Type
  | CreateExternalTableTask (p : CreateExternalTablePlan)
  | DropObjectTask (p : DropPlan)
  | CreateTableTask (p : CreateTablePlan)
  | CreateDatabaseTask (p : CreateDatabasePlan)
  | DescribeDatabaseTask (p : DescribeDatabasePlan)
  | DescribeTableTask (p : DescribeTablePlan)
  | ShowTablesTask (p : ShowTablesPlan)
  | ShowDatabasesTask
deriving DecidableEq, Repr

/-- `DDLDefinitionTaskFactory::create_task` (ddl/mod.rs:74-91): match on the
plan variant and construct the correspondingly-named task from the cloned
sub-plan; there is no default arm. -/
def create_task : DDLPlan → DDLTask
  | .CreateExternalTable sub_plan => .CreateExternalTableTask sub_plan
  | .Drop sub_plan => .DropObjectTask sub_plan
  | .CreateTable sub_plan => .CreateTableTask sub_plan
  | .CreateDatabase sub_plan => .CreateDatabaseTask sub_plan
  | .DescribeDatabase sub_plan => .DescribeDatabaseTask sub_plan
  | .DescribeTable sub_plan => .DescribeTableTask sub_plan
  | .ShowTables sub_plan => .ShowTablesTask sub_plan
  | .ShowDatabases => .ShowDatabasesTask

/-! ## Claim C1 — physical-type round trip -/

/-- **C1 (counterexample).**  The claim says the reverse conversion of
`Tag`'s physical type fails with the unsupported-type error; in the code
`Tag`'s physical type is `Utf8` and the reverse conversion of `Utf8`
*succeeds*, yielding `Field(String)`. -/
theorem tag_physical_roundtrip_succeeds :
    columnTypeToArrowDataType ColumnType.Tag = ArrowDataType.Utf8 ∧
    arrowDataTypeToColumnType (columnTypeToArrowDataType ColumnType.Tag) =
      Except.ok (ColumnType.Field ValueType.String) :=
  ⟨rfl, rfl⟩

/-- **C1 (amended).**  For every `v` in {Float, Integer, Unsigned, Boolean,
String}, converting `Field(v)` to its physical type and back yields
`Field(v)` unchanged; converting `Time` to its physical type and attempting
the reverse conversion fails with the unsupported-type error; converting
`Tag` yields `Utf8`, whose reverse conversion succeeds with `Field(String)`
(not `Tag`); and the reverse conversion never yields `Tag` or `Time`. -/
theorem columnType_physical_roundtrip :
    (arrowDataTypeToColumnType (columnTypeToArrowDataType (ColumnType.Field ValueType.Float)) =
      Except.ok (ColumnType.Field ValueType.Float)) ∧
    (arrowDataTypeToColumnType (columnTypeToArrowDataType (ColumnType.Field ValueType.Integer)) =
      Except.ok (ColumnType.Field ValueType.Integer)) ∧
    (arrowDataTypeToColumnType (columnTypeToArrowDataType (ColumnType.Field ValueType.Unsigned)) =
      Except.ok (ColumnType.Field ValueType.Unsigned)) ∧
    (arrowDataTypeToColumnType (columnTypeToArrowDataType (ColumnType.Field ValueType.Boolean)) =
      Except.ok (ColumnType.Field ValueType.Boolean)) ∧
    (arrowDataTypeToColumnType (columnTypeToArrowDataType (ColumnType.Field ValueType.String)) =
      Except.ok (ColumnType.Field ValueType.String)) ∧
    (arrowDataTypeToColumnType (columnTypeToArrowDataType ColumnType.Time) =
      Except.error ("Error field type not supported")) ∧
    (arrowDataTypeToColumnType (columnTypeToArrowDataType ColumnType.Tag) =
      Except.ok (ColumnType.Field ValueType.String)) ∧
    (∀ (dt : ArrowDataType) (ct : ColumnType),
      arrowDataTypeToColumnType dt = Except.ok ct → ct.is_field = true) := by
  refine ⟨rfl, rfl, rfl, rfl, rfl, rfl, rfl, ?_⟩
  intro dt ct h
  cases dt <;> simp [arrowDataTypeToColumnType] at h <;>
    simp [← h, ColumnType.is_field]

/-! ## Claim C2 — admission rejection -/

/-- **C2.**  With no admission permit available at entry, `execute_query`
returns the `RequestLimit` error with an empty work trace — no session
construction, no parse attempt, no statement execution — and `RequestLimit`
is a distinct error kind from every parse, planning, execution (and build)
error. -/
theorem execute_query_admission_reject :
    (∀ (d : SimpleQueryDispatcher) (q : Query),
      d.execute_query 0 q = (Except.error QueryError.RequestLimit, [])) ∧
    (∀ e, QueryError.RequestLimit ≠ QueryError.Parser e) ∧
    (∀ e, QueryError.RequestLimit ≠ QueryError.LogicalPlanner e) ∧
    (∀ e, QueryError.RequestLimit ≠ QueryError.LogicalOptimize e) ∧
    (∀ e, QueryError.RequestLimit ≠ QueryError.PhysicalPlaner e) ∧
    (∀ e, QueryError.RequestLimit ≠ QueryError.Analyzer e) ∧
    (∀ e, QueryError.RequestLimit ≠ QueryError.Optimizer e) ∧
    (∀ e, QueryError.RequestLimit ≠ QueryError.Schedule e) ∧
    (∀ e, QueryError.RequestLimit ≠ QueryError.Execution e) ∧
    (∀ e, QueryError.RequestLimit ≠ QueryError.BuildQueryDispatcher e) := by
  refine ⟨fun d q => ?_, ?_, ?_, ?_, ?_, ?_, ?_, ?_, ?_, ?_⟩
  · simp [SimpleQueryDispatcher.execute_query]
  all_goals intro e h; exact QueryError.noConfusion h

/-! ## Claim C4 — builder assembly -/

/-- **C4.**  `build` fails with a configuration error naming the first
missing required collaborator, checked in the order metadata,
session_factory, parser, optimizer, scheduler; with all five present it
succeeds and the dispatcher is assembled from exactly the supplied values —
no default is substituted for any required dependency. -/
theorem builder_build_first_missing :
    (∀ b : SimpleQueryDispatcherBuilder, b.metadata = none →
      b.build = Except.error (QueryError.BuildQueryDispatcher ("lost of metadata"))) ∧
    (∀ (b : SimpleQueryDispatcherBuilder) m, b.metadata = some m →
      b.session_factory = none →
      b.build = Except.error (QueryError.BuildQueryDispatcher ("lost of session_factory"))) ∧
    (∀ (b : SimpleQueryDispatcherBuilder) m sf, b.metadata = some m →
      b.session_factory = some sf → b.parser = none →
      b.build = Except.error (QueryError.BuildQueryDispatcher ("lost of parser"))) ∧
    (∀ (b : SimpleQueryDispatcherBuilder) m sf p, b.metadata = some m →
      b.session_factory = some sf → b.parser = some p → b.optimizer = none →
      b.build = Except.error (QueryError.BuildQueryDispatcher ("lost of optimizer"))) ∧
    (∀ (b : SimpleQueryDispatcherBuilder) m sf p o, b.metadata = some m →
      b.session_factory = some sf → b.parser = some p → b.optimizer = some o →
      b.scheduler = none →
      b.build = Except.error (QueryError.BuildQueryDispatcher ("lost of scheduler"))) ∧
    (∀ (b : SimpleQueryDispatcherBuilder) m sf p o sc, b.metadata = some m →
      b.session_factory = some sf → b.parser = some p → b.optimizer = some o →
      b.scheduler = some sc →
      b.build = Except.ok
        { metadata := m
          session_factory := sf
          parser := p
          query_execution_factory := ⟨o, sc⟩
          queriesLimit := b.queries_limit }) := by
  refine ⟨?_, ?_, ?_, ?_, ?_, ?_⟩
  · intro b h₁; simp [SimpleQueryDispatcherBuilder.build, h₁]
  · intro b m h₁ h₂; simp [SimpleQueryDispatcherBuilder.build, h₁, h₂]
  · intro b m sf h₁ h₂ h₃; simp [SimpleQueryDispatcherBuilder.build, h₁, h₂, h₃]
  · intro b m sf p h₁ h₂ h₃ h₄; simp [SimpleQueryDispatcherBuilder.build, h₁, h₂, h₃, h₄]
  · intro b m sf p o h₁ h₂ h₃ h₄ h₅
    simp [SimpleQueryDispatcherBuilder.build, h₁, h₂, h₃, h₄, h₅]
  · intro b m sf p o sc h₁ h₂ h₃ h₄ h₅
    simp [SimpleQueryDispatcherBuilder.build, h₁, h₂, h₃, h₄, h₅]

/-! ## Claim C10 — default concurrency limit is zero -/

/-- **C10.**  Building without ever calling `with_queries_limit` succeeds
(given the five required collaborators) and yields a dispatcher whose
admission semaphore has zero total permits, so with any number of available
permits (necessarily `≤ 0`, i.e. zero) every `execute_query` call is
rejected with `RequestLimit`. -/
theorem default_builder_rejects_every_query :
    ∀ (m : MetaDataRef) (sf : IsiphoSessionCtxFactory) (p : Parser)
      (o : Optimizer) (sc : Scheduler),
      ∃ d : SimpleQueryDispatcher,
        (((((SimpleQueryDispatcherBuilder.default.with_metadata m).with_session_factory
            sf).withParser p).with_optimizer o).with_scheduler sc).build = Except.ok d ∧
        d.queriesLimit = 0 ∧
        ∀ (q : Query) (avail : Nat), avail ≤ d.queriesLimit →
          (d.execute_query avail q).1 = Except.error QueryError.RequestLimit := by
  intro m sf p o sc
  refine ⟨{ metadata := m, session_factory := sf, parser := p,
            query_execution_factory := ⟨o, sc⟩, queriesLimit := 0 }, rfl, rfl, ?_⟩
  intro q avail h
  have hz : avail = 0 := Nat.le_zero.mp h
  subst hz
  simp [SimpleQueryDispatcher.execute_query]

/-! ## Claim C9 — DDL dispatch totality and exactness -/

/-- **C9.**  For each of the eight `DDLPlan` variants, `create_task`
constructs exactly the correspondingly-named task carrying that variant's
sub-plan (the Lean `match` is total, mirroring the Rust `match` with no
default arm), and no two distinct plans are mapped to the same task. -/
theorem create_task_total_exact :
    (∀ p, create_task (DDLPlan.CreateExternalTable p) = DDLTask.CreateExternalTableTask p) ∧
    (∀ p, create_task (DDLPlan.Drop p) = DDLTask.DropObjectTask p) ∧
    (∀ p, create_task (DDLPlan.CreateTable p) = DDLTask.CreateTableTask p) ∧
    (∀ p, create_task (DDLPlan.CreateDatabase p) = DDLTask.CreateDatabaseTask p) ∧
    (∀ p, create_task (DDLPlan.DescribeDatabase p) = DDLTask.DescribeDatabaseTask p) ∧
    (∀ p, create_task (DDLPlan.DescribeTable p) = DDLTask.DescribeTableTask p) ∧
    (∀ p, create_task (DDLPlan.ShowTables p) = DDLTask.ShowTablesTask p) ∧
    (create_task DDLPlan.ShowDatabases = DDLTask.ShowDatabasesTask) ∧
    (∀ p₁ p₂ : DDLPlan, create_task p₁ = create_task p₂ → p₁ = p₂) := by
  refine ⟨fun p => rfl, fun p => rfl, fun p => rfl, fun p => rfl, fun p => rfl,
    fun p => rfl, fun p => rfl, rfl, ?_⟩
  intro p₁ p₂ h
  cases p₁ <;> cases p₂ <;> simp_all [create_task]

/-! ## Claim C3 — all-or-nothing result list -/

/-- `Result::is_ok`. -/
def isOkE {ε α : Type} : Except ε α → Bool
  | .ok _ => true
  | .error _ => false

/-- On success, the statement loop yields one output per statement, in
statement order. -/
theorem runStatements_ok (d : SimpleQueryDispatcher) (stmts : List ExtStatement) :
    ∀ (idx : Nat) (outs : List Output),
      (runStatements d stmts idx).1 = Except.ok outs →
      outs.length = stmts.length ∧
      ∀ (i : Nat) (hi : i < stmts.length) (ho : i < outs.length),
        d.execute_statement (stmts.get ⟨i, hi⟩) = Except.ok (outs.get ⟨i, ho⟩) := by
  induction stmts with
  | nil =>
    intro idx outs h
    simp only [runStatements] at h
    have houts : outs = [] := by
      cases houts : outs
      · rfl
      · rw [houts] at h; simp at h
    subst houts
    exact ⟨rfl, fun i hi _ => absurd hi (Nat.not_lt_zero i)⟩
  | cons s rest ih =>
    intro idx outs h
    simp only [runStatements] at h
    cases hexec : d.execute_statement s with
    | error e => rw [hexec] at h; simp at h
    | ok o =>
      rw [hexec] at h
      dsimp only at h
      cases hrun : (runStatements d rest (idx + 1)).1 with
      | error e => rw [hrun] at h; simp at h
      | ok os =>
        rw [hrun] at h
        dsimp only at h
        have houts : outs = o :: os := by
          cases h; rfl
        subst houts
        obtain ⟨hlen, hpt⟩ := ih (idx + 1) os hrun
        refine ⟨by simp [hlen], ?_⟩
        intro i hi ho
        cases i with
        | zero => exact hexec
        | succ i' =>
          exact hpt i' (Nat.lt_of_succ_lt_succ hi) (Nat.lt_of_succ_lt_succ ho)

/-- If every statement before position `n` succeeds and statement `n` fails
with `e`, the loop returns `e` and executes exactly statements `0..n`. -/
theorem runStatements_error (d : SimpleQueryDispatcher) (stmts : List ExtStatement) :
    ∀ (idx n : Nat) (hn : n < stmts.length) (e : QueryError),
      (∀ (j : Nat) (hj : j < n),
        isOkE (d.execute_statement (stmts.get ⟨j, Nat.lt_trans hj hn⟩)) = true) →
      d.execute_statement (stmts.get ⟨n, hn⟩) = Except.error e →
      runStatements d stmts idx =
        (Except.error e,
         (List.range' idx (n + 1)).map QueryEvent.statementExecuted) := by
  induction stmts with
  | nil => intro idx n hn; exact absurd hn (Nat.not_lt_zero n)
  | cons s rest ih =>
    intro idx n hn e hpre hfail
    cases n with
    | zero =>
      have hs : d.execute_statement s = Except.error e := hfail
      simp [runStatements, hs, List.range']
    | succ n' =>
      have h0 : isOkE (d.execute_statement s) = true := hpre 0 (Nat.succ_pos n')
      cases hexec : d.execute_statement s with
      | error e0 => rw [hexec] at h0; simp [isOkE] at h0
      | ok o =>
        have hn' : n' < rest.length := Nat.lt_of_succ_lt_succ hn
        have hpre' : ∀ (j : Nat) (hj : j < n'),
            isOkE (d.execute_statement (rest.get ⟨j, Nat.lt_trans hj hn'⟩)) = true := by
          intro j hj
          exact hpre (j + 1) (Nat.succ_lt_succ hj)
        have hfail' : d.execute_statement (rest.get ⟨n', hn'⟩) = Except.error e := hfail
        have hrec := ih (idx + 1) n' hn' e hpre' hfail'
        simp only [runStatements, hexec]
        rw [hrec]
        dsimp only
        simp [List.range']

theorem filterMap_someId (l : List Nat) : l.filterMap (fun i => some i) = l := by
  induction l with
  | nil => rfl
  | cons a l ih => simp [List.filterMap_cons, ih]

/-- The all-or-nothing contract of `execute_query` once admitted and parsed:
a success carries exactly one output per statement in statement order; the
first statement failure is returned as the query's error, statements past it
are never executed (the executed indices are exactly `0..n`), and the
outputs produced before it are discarded. -/
def ExecuteQueryContract (d : SimpleQueryDispatcher) (q : Query) (permits : Nat)
    (stmts : List ExtStatement) : Prop :=
  (∀ outs : List Output, (d.execute_query permits q).1 = Except.ok outs →
     outs.length = stmts.length ∧
     ∀ (i : Nat) (hi : i < stmts.length) (ho : i < outs.length),
       d.execute_statement (stmts.get ⟨i, hi⟩) = Except.ok (outs.get ⟨i, ho⟩)) ∧
  (∀ (n : Nat) (hn : n < stmts.length) (e : QueryError),
     (∀ (j : Nat) (hj : j < n),
       isOkE (d.execute_statement (stmts.get ⟨j, Nat.lt_trans hj hn⟩)) = true) →
     d.execute_statement (stmts.get ⟨n, hn⟩) = Except.error e →
     (d.execute_query permits q).1 = Except.error e ∧
     (d.execute_query permits q).2.filterMap QueryEvent.stmtIdx = List.range (n + 1))

/-- **C3.**  An admitted `execute_query` whose parse produced `stmts`
satisfies the all-or-nothing contract: either an error, or the full ordered
result list with exactly one output per parsed statement — never a partial
list. -/
theorem execute_query_all_or_error (d : SimpleQueryDispatcher) (q : Query)
    (permits : Nat) (stmts : List ExtStatement) (hp : permits ≠ 0)
    (hparse : d.parser.parse q.content = Except.ok stmts) :
    ExecuteQueryContract d q permits stmts := by
  have hq : d.execute_query permits q =
      ((runStatements d stmts 0).1,
       QueryEvent.sessionCreated :: QueryEvent.parseAttempted ::
         (runStatements d stmts 0).2) := by
    simp [SimpleQueryDispatcher.execute_query, hp, hparse]
  constructor
  · intro outs h
    rw [hq] at h
    exact runStatements_ok d stmts 0 outs h
  · intro n hn e hpre hfail
    have hrec := runStatements_error d stmts 0 n hn e hpre hfail
    rw [hq, hrec]
    refine ⟨rfl, ?_⟩
    dsimp only
    simp only [QueryEvent.stmtIdx, List.filterMap_cons, List.filterMap_map]
    have hsome : (QueryEvent.stmtIdx ∘ QueryEvent.statementExecuted) = fun i => some i := by
      funext i
      simp [QueryEvent.stmtIdx]
    rw [hsome, filterMap_someId, ← List.range_eq_range']

/-- A concrete dispatcher for the witnesses: every collaborator succeeds. -/
def dispatcherW : SimpleQueryDispatcher :=
  { metadata := ⟨fun _ => Except.ok ⟨0⟩⟩
    session_factory := ⟨0⟩
    parser := ⟨fun _ => Except.ok [ExtStatement.ShowDatabases]⟩
    query_execution_factory := ⟨⟨fun _ _ => Except.ok ⟨1⟩⟩, ⟨0⟩⟩
    queriesLimit := 1 }

def queryW : Query := ⟨"SHOW DATABASES"⟩

theorem execute_query_all_or_error_witness :
    (1 : Nat) ≠ 0 ∧
    dispatcherW.parser.parse queryW.content = Except.ok [ExtStatement.ShowDatabases] ∧
    ExecuteQueryContract dispatcherW queryW 1 [ExtStatement.ShowDatabases] :=
  ⟨by decide, rfl,
    execute_query_all_or_error dispatcherW queryW 1 [ExtStatement.ShowDatabases]
      (by decide) rfl⟩

/-! ## Claim C8 — `Duration::new` -/

/-- The spec's integer syntax: an optional leading `+`, then one or more
digits, with the value in `u64` range. -/
def IsU64Text (cs : List Char) : Prop :=
  ∃ ds : List Char, (cs = ds ∨ cs = '+' :: ds) ∧ ds ≠ [] ∧
    (∀ c ∈ ds, c.isDigit = true) ∧ digitsToNat ds < 2 ^ 64

/-- The spec's duration grammar: `<int><unit-letter>` with `d`/`h`/`m`
case-insensitive, or a bare integer. -/
def WellFormedDurationText (s : String) : Prop :=
  IsU64Text s.toList ∨
    ∃ (ds : List Char) (u : Char), s.toList = ds ++ [u] ∧ IsU64Text ds ∧
      (u.toUpper = 'D' ∨ u.toUpper = 'H' ∨ u.toUpper = 'M')

theorem stripPlus_shape (cs : List Char) : cs = stripPlus cs ∨ cs = '+' :: stripPlus cs := by
  unfold stripPlus
  match cs with
  | [] => exact Or.inl rfl
  | c :: rest =>
    by_cases hp : c = '+'
    · subst hp; simp
    · simp [hp]

theorem parseU64_some_isU64 {cs : List Char} {v : Nat} (h : parseU64 cs = some v) :
    IsU64Text cs := by
  unfold parseU64 at h
  split at h
  · next hcond =>
    simp only [Bool.and_eq_true, Bool.not_eq_true', List.all_eq_true,
      decide_eq_true_eq] at hcond
    refine ⟨stripPlus cs, stripPlus_shape cs, ?_, fun c hc => hcond.1.2 c hc, hcond.2⟩
    have := hcond.1.1
    intro hnil
    rw [hnil] at this
    simp at this
  · exact absurd h (by simp)

/-- Unfolding of `Duration.new` on an explicit character list. -/
theorem duration_new_mk (l : List Char) :
    Duration.new ⟨l⟩ =
      (if l.isEmpty then (RunResult.ok (none : Option Duration))
       else
        match parseU64 l with
        | some v => .ok (some ⟨v, DurationUnit.Day⟩)
        | none =>
          match l.getLast? with
          | none => .ok none
          | some u =>
            if u.utf8Size ≠ 1 then .panicked
            else
              match parseU64 l.dropLast with
              | none => .ok none
              | some tn =>
                if u.toUpper = 'D' then .ok (some ⟨tn, DurationUnit.Day⟩)
                else if u.toUpper = 'H' then .ok (some ⟨tn, DurationUnit.Hour⟩)
                else if u.toUpper = 'M' then .ok (some ⟨tn, DurationUnit.Minutes⟩)
                else .ok none) := rfl

/-- A returned value implies the input matched the duration grammar. -/
theorem duration_new_value_wf (l : List Char) (d : Duration)
    (h : Duration.new ⟨l⟩ = RunResult.ok (some d)) : WellFormedDurationText ⟨l⟩ := by
  show IsU64Text l ∨ ∃ (ds : List Char) (u : Char), l = ds ++ [u] ∧ IsU64Text ds ∧
    (u.toUpper = 'D' ∨ u.toUpper = 'H' ∨ u.toUpper = 'M')
  rw [duration_new_mk] at h
  by_cases hemp : l.isEmpty
  · rw [if_pos hemp] at h
    simp at h
  rw [if_neg hemp] at h
  have hne : l ≠ [] := by simpa using hemp
  cases hw : parseU64 l with
  | some v => exact Or.inl (parseU64_some_isU64 hw)
  | none =>
    rw [hw] at h
    rw [List.getLast?_eq_getLast l hne] at h
    dsimp only at h
    by_cases hsz : (l.getLast hne).utf8Size ≠ 1
    · rw [if_pos hsz] at h
      simp at h
    rw [if_neg hsz] at h
    cases hfront : parseU64 l.dropLast with
    | none =>
      rw [hfront] at h
      simp at h
    | some tn =>
      rw [hfront] at h
      dsimp only at h
      refine Or.inr ⟨l.dropLast, l.getLast hne, (List.dropLast_append_getLast hne).symm,
        parseU64_some_isU64 hfront, ?_⟩
      by_cases h1 : (l.getLast hne).toUpper = 'D'
      · exact Or.inl h1
      by_cases h2 : (l.getLast hne).toUpper = 'H'
      · exact Or.inr (Or.inl h2)
      by_cases h3 : (l.getLast hne).toUpper = 'M'
      · exact Or.inr (Or.inr h3)
      rw [if_neg h1, if_neg h2, if_neg h3] at h
      simp at h

/-- A malformed input that does not hit the byte-boundary panic — in
particular any malformed input whose last character is a single UTF-8 byte,
hence any malformed ASCII input — returns `None`. -/
theorem duration_new_malformed_none (l : List Char)
    (hwf : ¬WellFormedDurationText ⟨l⟩)
    (hlast : ∀ u, l.getLast? = some u → u.utf8Size = 1) :
    Duration.new ⟨l⟩ = RunResult.ok none := by
  have hwf' : ¬(IsU64Text l ∨ ∃ (ds : List Char) (u : Char), l = ds ++ [u] ∧ IsU64Text ds ∧
      (u.toUpper = 'D' ∨ u.toUpper = 'H' ∨ u.toUpper = 'M')) := hwf
  rw [duration_new_mk]
  by_cases hemp : l.isEmpty
  · rw [if_pos hemp]
  rw [if_neg hemp]
  have hne : l ≠ [] := by simpa using hemp
  cases hw : parseU64 l with
  | some v => exact absurd (Or.inl (parseU64_some_isU64 hw)) hwf'
  | none =>
    rw [List.getLast?_eq_getLast l hne]
    dsimp only
    have hsz : (l.getLast hne).utf8Size = 1 :=
      hlast (l.getLast hne) (List.getLast?_eq_getLast l hne)
    rw [if_neg (fun hcon => hcon hsz)]
    cases hfront : parseU64 l.dropLast with
    | none => rfl
    | some tn =>
      dsimp only
      by_cases h1 : (l.getLast hne).toUpper = 'D'
      · exact absurd (Or.inr ⟨l.dropLast, l.getLast hne,
          (List.dropLast_append_getLast hne).symm, parseU64_some_isU64 hfront,
          Or.inl h1⟩) hwf'
      by_cases h2 : (l.getLast hne).toUpper = 'H'
      · exact absurd (Or.inr ⟨l.dropLast, l.getLast hne,
          (List.dropLast_append_getLast hne).symm, parseU64_some_isU64 hfront,
          Or.inr (Or.inl h2)⟩) hwf'
      by_cases h3 : (l.getLast hne).toUpper = 'M'
      · exact absurd (Or.inr ⟨l.dropLast, l.getLast hne,
          (List.dropLast_append_getLast hne).symm, parseU64_some_isU64 hfront,
          Or.inr (Or.inr h3)⟩) hwf'
      rw [if_neg h1, if_neg h2, if_neg h3]

/-- The function panics exactly when the whole-text integer parse fails and
the last character is wider than one byte (so `len - 1` is not a character
boundary for the `&text[..len - 1]` slice). -/
theorem duration_new_panicked_iff (l : List Char) :
    Duration.new ⟨l⟩ = RunResult.panicked ↔
      (parseU64 l = none ∧ ∃ u, l.getLast? = some u ∧ u.utf8Size ≠ 1) := by
  rw [duration_new_mk]
  constructor
  · intro h
    by_cases hemp : l.isEmpty
    · rw [if_pos hemp] at h
      simp at h
    rw [if_neg hemp] at h
    have hne : l ≠ [] := by simpa using hemp
    cases hw : parseU64 l with
    | some v =>
      rw [hw] at h
      simp at h
    | none =>
      rw [hw] at h
      rw [List.getLast?_eq_getLast l hne] at h
      dsimp only at h
      by_cases hsz : (l.getLast hne).utf8Size ≠ 1
      · exact ⟨rfl, l.getLast hne, List.getLast?_eq_getLast l hne, hsz⟩
      exfalso
      rw [if_neg hsz] at h
      cases hfront : parseU64 l.dropLast with
      | none =>
        rw [hfront] at h
        simp at h
      | some tn =>
        rw [hfront] at h
        dsimp only at h
        by_cases h1 : (l.getLast hne).toUpper = 'D'
        · rw [if_pos h1] at h; simp at h
        by_cases h2 : (l.getLast hne).toUpper = 'H'
        · rw [if_neg h1, if_pos h2] at h; simp at h
        by_cases h3 : (l.getLast hne).toUpper = 'M'
        · rw [if_neg h1, if_neg h2, if_pos h3] at h; simp at h
        rw [if_neg h1, if_neg h2, if_neg h3] at h
        simp at h
  · rintro ⟨hw, u, hu, hsz⟩
    have hne : l ≠ [] := by
      intro hnil
      rw [hnil] at hu
      simp at hu
    have hemp : ¬l.isEmpty = true := by simpa using hne
    rw [if_neg hemp, hw, hu]
    dsimp only
    rw [if_pos hsz]

/-- **C8 (counterexample).**  The claim says every malformed input returns
`None`; but on `"7é"` — malformed, and ending in the two-byte character
`'é'` — the whole-text parse fails and `&text[..len - 1]` slices at a
non-character-boundary byte offset, so the program panics instead of
returning `None`. -/
theorem duration_new_panics_on_multibyte :
    Duration.new ("7é") = RunResult.panicked ∧
    (∀ o : Option Duration, RunResult.panicked ≠ RunResult.ok o) := by
  refine ⟨by decide, ?_⟩
  intro o h
  exact RunResult.noConfusion h

/-- **C8 (amended).**  `Duration::new` parses permissively and partially:
`new("")` and `new("7x")` return no value; `new("7")` returns `{7, Day}`;
`new("3h")` returns `{3, Hour}`; `new("10D")` returns `{10, Day}` (the unit
letter is case-insensitive); a returned value implies the input matched the
grammar; every malformed input whose last character is a single UTF-8 byte
(in particular every malformed ASCII input) returns `None` rather than a
default or an error; but an input whose whole-text integer parse fails and
whose last character is multi-byte makes the function panic on a
non-character-boundary byte slice rather than return `None`. -/
theorem duration_new_spec :
    Duration.new ("") = RunResult.ok none ∧
    Duration.new ("7x") = RunResult.ok none ∧
    Duration.new ("7") = RunResult.ok (some ⟨7, DurationUnit.Day⟩) ∧
    Duration.new ("3h") = RunResult.ok (some ⟨3, DurationUnit.Hour⟩) ∧
    Duration.new ("10D") = RunResult.ok (some ⟨10, DurationUnit.Day⟩) ∧
    (∀ (s : String) (d : Duration), Duration.new s = RunResult.ok (some d) →
      WellFormedDurationText s) ∧
    (∀ s : String, ¬WellFormedDurationText s →
      (∀ u, s.toList.getLast? = some u → u.utf8Size = 1) →
      Duration.new s = RunResult.ok none) ∧
    (∀ s : String, Duration.new s = RunResult.panicked ↔
      (parseU64 s.toList = none ∧ ∃ u, s.toList.getLast? = some u ∧ u.utf8Size ≠ 1)) := by
  refine ⟨by decide, by decide, by decide, by decide, by decide, ?_, ?_, ?_⟩
  · intro s d h
    obtain ⟨l⟩ := s
    exact duration_new_value_wf l d h
  · intro s hwf hlast
    obtain ⟨l⟩ := s
    exact duration_new_malformed_none l hwf hlast
  · intro s
    obtain ⟨l⟩ := s
    exact duration_new_panicked_iff l

/-! ## Claims C5–C7 — schema index machinery

`findPosBy f l` is the position of the first element of `l` satisfying `f`;
it characterizes lookups in the maps `indexByFrom` builds. -/

def findPosBy {α : Type} (f : α → Bool) : List α → Option Nat
  | [] => none
  | a :: rest => if f a then some 0 else (findPosBy f rest).map (· + 1)

theorem findPosBy_eq_none_iff {α : Type} (f : α → Bool) (l : List α) :
    findPosBy f l = none ↔ ∀ a ∈ l, f a = false := by
  induction l with
  | nil => simp [findPosBy]
  | cons a rest ih =>
    by_cases hf : f a <;> simp [findPosBy, hf, ih]

theorem findPosBy_some {α : Type} (f : α → Bool) :
    ∀ (l : List α) (i : Nat), findPosBy f l = some i →
      ∃ hi : i < l.length, f (l.get ⟨i, hi⟩) = true := by
  intro l
  induction l with
  | nil => intro i h; simp [findPosBy] at h
  | cons a rest ih =>
    intro i h
    by_cases hf : f a
    · simp [findPosBy, hf] at h
      subst h
      exact ⟨Nat.succ_pos _, hf⟩
    · simp [findPosBy, hf] at h
      obtain ⟨j, hj, hji⟩ := h
      obtain ⟨hjl, hfj⟩ := ih j hj
      subst hji
      exact ⟨Nat.succ_lt_succ hjl, hfj⟩

theorem findPosBy_eq_some_of {α : Type} (f : α → Bool) :
    ∀ (l : List α) (i : Nat) (hi : i < l.length),
      f (l.get ⟨i, hi⟩) = true →
      (∀ (j : Nat) (hj : j < i), f (l.get ⟨j, Nat.lt_trans hj hi⟩) = false) →
      findPosBy f l = some i := by
  intro l
  induction l with
  | nil => intro i hi; exact absurd hi (Nat.not_lt_zero i)
  | cons a rest ih =>
    intro i hi ht hb
    cases i with
    | zero =>
      have ha : f a = true := ht
      simp [findPosBy, ha]
    | succ i' =>
      have ha : f a = false := hb 0 (Nat.succ_pos i')
      have hi' : i' < rest.length := Nat.lt_of_succ_lt_succ hi
      have ht' : f (rest.get ⟨i', hi'⟩) = true := ht
      have hb' : ∀ (j : Nat) (hj : j < i'),
          f (rest.get ⟨j, Nat.lt_trans hj hi'⟩) = false := by
        intro j hj
        exact hb (j + 1) (Nat.succ_lt_succ hj)
      simp [findPosBy, ha, ih i' hi' ht' hb']

/-- Lookup characterization of `indexByFrom` when the keys are distinct: the
bound value of `k` is the offset position of the (unique) element with key
`k`, falling back to the initial map. -/
theorem hmGet_indexByFrom {α κ : Type} [DecidableEq κ] (key : α → κ) :
    ∀ (l : List α) (m : List (κ × Nat)) (i : Nat) (k : κ),
      (l.map key).Nodup →
      hmGet (indexByFrom key m i l) k =
        (match findPosBy (fun a => decide (key a = k)) l with
         | some j => some (i + j)
         | none => hmGet m k) := by
  intro l
  induction l with
  | nil => intro m i k _; simp [indexByFrom, findPosBy]
  | cons a rest ih =>
    intro m i k hnd
    rw [List.map_cons, List.nodup_cons] at hnd
    obtain ⟨hka, hnd'⟩ := hnd
    by_cases hk : key a = k
    · subst hk
      have hrest : findPosBy (fun b => decide (key b = key a)) rest = none := by
        rw [findPosBy_eq_none_iff]
        intro b hb
        simp only [decide_eq_false_iff_not]
        intro hbeq
        exact hka (hbeq ▸ List.mem_map_of_mem key hb)
      simp only [indexByFrom]
      rw [ih (hmInsert m (key a) i) (i + 1) (key a) hnd']
      simp [findPosBy, hrest, hmGet_hmInsert_self]
    · have hfa : (fun b => decide (key b = k)) a = false := by simp [hk]
      simp only [indexByFrom]
      rw [ih (hmInsert m (key a) i) (i + 1) k hnd']
      cases hfind : findPosBy (fun b => decide (key b = k)) rest with
      | some j =>
        simp only [findPosBy, hfa, if_false, hfind, Option.map_some']
        congr 1
        omega
      | none =>
        simp only [findPosBy, hfa, if_false, hfind, Option.map_none']
        exact hmGet_hmInsert_ne m (key a) k i fun h => hk h.symm

/-- Keys already bound, and the key of every listed element, stay bound. -/
theorem hmGet_indexByFrom_isSome {α κ : Type} [DecidableEq κ] (key : α → κ) :
    ∀ (l : List α) (m : List (κ × Nat)) (i : Nat) (k : κ),
      (k ∈ l.map key ∨ (hmGet m k).isSome = true) →
      (hmGet (indexByFrom key m i l) k).isSome = true := by
  intro l
  induction l with
  | nil =>
    intro m i k h
    cases h with
    | inl h => simp at h
    | inr h => simpa [indexByFrom] using h
  | cons a rest ih =>
    intro m i k h
    simp only [indexByFrom]
    apply ih
    cases h with
    | inl h =>
      rcases (by simpa using h : k = key a ∨ k ∈ rest.map key) with h | h
      · subst h
        right
        rw [hmGet_hmInsert_self]
        rfl
      · exact Or.inl h
    | inr h => exact Or.inr (hmGet_hmInsert_isSome m (key a) k i h)

theorem hmGet_append_single {κ ν : Type} [DecidableEq κ] (m : List (κ × ν)) (k₀ : κ)
    (v₀ : ν) (k : κ) (h : hmGet m k = none) (hne : k ≠ k₀) :
    hmGet (m ++ [(k₀, v₀)]) k = none := by
  have hne' : ¬k₀ = k := fun hh => hne hh.symm
  induction m with
  | nil => simp [hmGet, hne']
  | cons p rest ih =>
    obtain ⟨k₁, v₁⟩ := p
    by_cases h₁ : k₁ = k
    · simp [hmGet, h₁] at h
    · simp only [hmGet, h₁, if_false, List.cons_append] at h ⊢
      exact ih h

/-- The pair list `(key a₀, i), (key a₁, i+1), …` in list order. -/
def enumPairsFrom {α κ : Type} (key : α → κ) (i : Nat) : List α → List (κ × Nat)
  | [] => []
  | a :: rest => (key a, i) :: enumPairsFrom key (i + 1) rest

/-- With distinct, fresh keys, `indexByFrom` just appends the enumerated
pairs (no overwrite ever fires). -/
theorem indexByFrom_eq_append {α κ : Type} [DecidableEq κ] (key : α → κ) :
    ∀ (l : List α) (m : List (κ × Nat)) (i : Nat),
      (l.map key).Nodup → (∀ a ∈ l, hmGet m (key a) = none) →
      indexByFrom key m i l = m ++ enumPairsFrom key i l := by
  intro l
  induction l with
  | nil => intro m i _ _; simp [indexByFrom, enumPairsFrom]
  | cons a rest ih =>
    intro m i hnd habs
    rw [List.map_cons, List.nodup_cons] at hnd
    obtain ⟨hka, hnd'⟩ := hnd
    simp only [indexByFrom, enumPairsFrom]
    rw [hmInsert_absent m (key a) i (habs a (List.mem_cons_self a rest))]
    rw [ih (m ++ [(key a, i)]) (i + 1) hnd' ?_]
    · simp
    · intro b hb
      refine hmGet_append_single m (key a) i (key b)
        (habs b (List.mem_cons_of_mem a hb)) ?_
      intro hbeq
      exact hka (hbeq ▸ List.mem_map_of_mem key hb)

theorem enumPairsFrom_length {α κ : Type} (key : α → κ) :
    ∀ (l : List α) (i : Nat), (enumPairsFrom key i l).length = l.length := by
  intro l
  induction l with
  | nil => intro i; rfl
  | cons a rest ih => intro i; simp [enumPairsFrom, ih]

theorem enumPairsFrom_map_snd {α κ : Type} (key : α → κ) :
    ∀ (l : List α) (i : Nat),
      (enumPairsFrom key i l).map Prod.snd = List.range' i l.length := by
  intro l
  induction l with
  | nil => intro i; rfl
  | cons a rest ih => intro i; simp [enumPairsFrom, ih, List.range']

/-- Two positions carrying the same key coincide when keys are distinct. -/
theorem nodup_key_inj {α κ : Type} (key : α → κ) {l : List α}
    (hnd : (l.map key).Nodup) {i j : Nat} (hi : i < l.length) (hj : j < l.length)
    (h : key (l.get ⟨i, hi⟩) = key (l.get ⟨j, hj⟩)) : i = j := by
  have h₁ : (l.map key).get ⟨i, by simpa using hi⟩
      = (l.map key).get ⟨j, by simpa using hj⟩ := by
    simpa using h
  have h₂ := hnd.get_inj_iff.mp h₁
  simpa using h₂

/-! ## Claim C5 — name-index consistency -/

/-- The name index is exactly consistent with the column list:
`columns_index` maps `n` to `i` iff the column at position `i` is named `n`. -/
def IndexConsistent (s : TskvTableSchema) : Prop :=
  ∀ (n : String) (i : Nat),
    hmGet s.columns_index n = some i ↔
      ∃ hi : i < s.columns.length, (s.columns.get ⟨i, hi⟩).name = n

/-- Column names are pairwise distinct. -/
def NamesNodup (s : TskvTableSchema) : Prop :=
  (s.columns.map TableColumn.name).Nodup

theorem new_inv (db nm : String) (cols : List TableColumn)
    (hnd : (cols.map TableColumn.name).Nodup) :
    NamesNodup (TskvTableSchema.new db nm cols) ∧
    IndexConsistent (TskvTableSchema.new db nm cols) := by
  refine ⟨hnd, ?_⟩
  intro n i
  have hix : (TskvTableSchema.new db nm cols).columns_index
      = indexByFrom TableColumn.name [] 0 cols := rfl
  have hcols : (TskvTableSchema.new db nm cols).columns = cols := rfl
  rw [hix, hcols, hmGet_indexByFrom TableColumn.name cols [] 0 n hnd]
  constructor
  · intro h
    cases hfind : findPosBy (fun c => decide (c.name = n)) cols with
    | none => rw [hfind] at h; simp [hmGet] at h
    | some j =>
      rw [hfind] at h
      simp only [Nat.zero_add, Option.some.injEq] at h
      subst h
      obtain ⟨hj, hfj⟩ := findPosBy_some _ cols j hfind
      exact ⟨hj, by simpa using hfj⟩
  · rintro ⟨hi, hname⟩
    have hfj : (fun c => decide (c.name = n)) (cols.get ⟨i, hi⟩) = true := by
      simpa using hname
    have hbefore : ∀ (j : Nat) (hj : j < i),
        (fun c => decide (c.name = n)) (cols.get ⟨j, Nat.lt_trans hj hi⟩) = false := by
      intro j hj
      simp only [decide_eq_false_iff_not]
      intro heq
      have hji : j = i := nodup_key_inj TableColumn.name hnd (Nat.lt_trans hj hi) hi
        (heq.trans hname.symm)
      omega
    rw [findPosBy_eq_some_of _ cols i hi hfj hbefore]
    simp

theorem add_column_inv {s : TskvTableSchema}
    (h : NamesNodup s ∧ IndexConsistent s) (c : TableColumn) :
    NamesNodup (s.add_column c) ∧ IndexConsistent (s.add_column c) := by
  obtain ⟨hnd, hic⟩ := h
  cases hg : hmGet s.columns_index c.name with
  | some v =>
    have hs' : s.add_column c = s := by
      unfold TskvTableSchema.add_column
      rw [hg]
    rw [hs']
    exact ⟨hnd, hic⟩
  | none =>
    have hs' : s.add_column c =
        { s with columns := s.columns ++ [c],
                 columns_index := hmInsert s.columns_index c.name s.columns.length } := by
      unfold TskvTableSchema.add_column
      rw [hg]
    rw [hs']
    have hcnot : c.name ∉ s.columns.map TableColumn.name := by
      intro hmem
      obtain ⟨col, hcol, hname⟩ := List.mem_map.mp hmem
      obtain ⟨fi, hget⟩ := List.mem_iff_get.mp hcol
      have hsome : hmGet s.columns_index c.name = some fi.1 :=
        (hic c.name fi.1).mpr ⟨fi.2, by
          show (s.columns.get fi).name = c.name
          rw [hget]
          exact hname⟩
      rw [hg] at hsome
      exact Option.noConfusion hsome
    constructor
    · show ((s.columns ++ [c]).map TableColumn.name).Nodup
      rw [List.map_append]
      have hnd₀ : (List.map TableColumn.name s.columns).Nodup := hnd
      simp [List.nodup_append, hnd₀, hcnot]
    · intro n i
      show hmGet (hmInsert s.columns_index c.name s.columns.length) n = some i ↔
        ∃ hi : i < (s.columns ++ [c]).length, ((s.columns ++ [c]).get ⟨i, hi⟩).name = n
      by_cases hn : n = c.name
      · subst hn
        rw [hmGet_hmInsert_self]
        constructor
        · intro hgi
          have hii : i = s.columns.length := (Option.some.inj hgi).symm
          subst hii
          refine ⟨by simp, ?_⟩
          simp only [List.get_eq_getElem]
          rw [List.getElem_append_right (Nat.le_refl s.columns.length)]
          simp
        · rintro ⟨hi, hname⟩
          rcases Nat.lt_or_ge i s.columns.length with hlt | hge
          · exfalso
            have hname' : (s.columns.get ⟨i, hlt⟩).name = c.name := by
              have hx := hname
              simp only [List.get_eq_getElem] at hx ⊢
              rwa [List.getElem_append_left hlt] at hx
            have hmm : hmGet s.columns_index c.name = some i :=
              (hic c.name i).mpr ⟨hlt, hname'⟩
            rw [hg] at hmm
            exact Option.noConfusion hmm
          · have hieq : i = s.columns.length := by
              have hx := hi
              simp only [List.length_append, List.length_cons, List.length_nil] at hx
              omega
            subst hieq
            rfl
      · rw [hmGet_hmInsert_ne _ _ _ _ hn]
        rw [hic n i]
        constructor
        · rintro ⟨hi, hname⟩
          refine ⟨by simp only [List.length_append, List.length_cons, List.length_nil]; omega, ?_⟩
          simp only [List.get_eq_getElem]
          rw [List.getElem_append_left hi]
          simpa using hname
        · rintro ⟨hi, hname⟩
          have hlt : i < s.columns.length := by
            rcases Nat.lt_or_ge i s.columns.length with hh | hh
            · exact hh
            · exfalso
              have hieq : i = s.columns.length := by
                have hx := hi
                simp only [List.length_append, List.length_cons, List.length_nil] at hx
                omega
              subst hieq
              apply hn
              have hcn : ((s.columns ++ [c]).get ⟨s.columns.length, hi⟩).name = c.name := by
                simp only [List.get_eq_getElem]
                rw [List.getElem_append_right (Nat.le_refl s.columns.length)]
                simp
              exact hname.symm.trans hcn
          refine ⟨hlt, ?_⟩
          have hx := hname
          simp only [List.get_eq_getElem] at hx ⊢
          rwa [List.getElem_append_left hlt] at hx

theorem addColumns_inv {s : TskvTableSchema}
    (h : NamesNodup s ∧ IndexConsistent s) (seq : List TableColumn) :
    NamesNodup (s.addColumns seq) ∧ IndexConsistent (s.addColumns seq) := by
  induction seq generalizing s with
  | nil => exact h
  | cons c rest ih =>
    show NamesNodup ((s.add_column c).addColumns rest) ∧ _
    exact ih (add_column_inv h c)

/-- By-name lookup behaves like the claim demands: every stored position is
in bounds (so the source's `get_unchecked` never reads out of bounds),
`column(name)` returns the column with that name when one is present and
`none` otherwise. -/
def ColumnLookupCorrect (s : TskvTableSchema) : Prop :=
  (∀ (n : String) (i : Nat), hmGet s.columns_index n = some i → i < s.columns.length) ∧
  (∀ (n : String) (c : TableColumn), s.column n = some c → c.name = n ∧ c ∈ s.columns) ∧
  (∀ n : String, (∀ c ∈ s.columns, c.name ≠ n) → s.column n = none) ∧
  (∀ n : String, (∃ c ∈ s.columns, c.name = n) → ∃ c, s.column n = some c ∧ c.name = n)

theorem indexConsistent_lookup {s : TskvTableSchema} (hic : IndexConsistent s) :
    ColumnLookupCorrect s := by
  refine ⟨?_, ?_, ?_, ?_⟩
  · intro n i h
    obtain ⟨hi, _⟩ := (hic n i).mp h
    exact hi
  · intro n c h
    unfold TskvTableSchema.column at h
    cases hg : hmGet s.columns_index n with
    | none => rw [hg] at h; exact Option.noConfusion h
    | some i =>
      rw [hg] at h
      dsimp only [Option.bind] at h
      obtain ⟨hi, hname⟩ := (hic n i).mp hg
      rw [List.get?_eq_get hi] at h
      have hc : c = s.columns.get ⟨i, hi⟩ := (Option.some.inj h).symm
      subst hc
      exact ⟨hname, List.get_mem s.columns i hi⟩
  · intro n hnone
    unfold TskvTableSchema.column
    cases hg : hmGet s.columns_index n with
    | none => rfl
    | some i =>
      obtain ⟨hi, hname⟩ := (hic n i).mp hg
      exact absurd hname (hnone _ (List.get_mem s.columns i hi))
  · intro n hex
    obtain ⟨c, hc, hname⟩ := hex
    obtain ⟨fi, hget⟩ := List.mem_iff_get.mp hc
    have hsome : hmGet s.columns_index n = some fi.1 :=
      (hic n fi.1).mpr ⟨fi.2, by
        show (s.columns.get fi).name = n
        rw [hget]
        exact hname⟩
    refine ⟨s.columns.get fi, ?_, by rw [hget]; exact hname⟩
    unfold TskvTableSchema.column
    rw [hsome]
    dsimp only [Option.bind]
    rw [List.get?_eq_get fi.2]

/-- **C5.**  For every schema obtained by `new` from columns with distinct
names followed by any sequence of `add_column` calls, the name index is
exactly consistent with the column list, every stored position is in bounds,
and by-name lookup returns the column with that name iff one is present. -/
theorem tskv_index_consistent (db nm : String) (cols seq : List TableColumn)
    (hnd : (cols.map TableColumn.name).Nodup) :
    IndexConsistent ((TskvTableSchema.new db nm cols).addColumns seq) ∧
    ColumnLookupCorrect ((TskvTableSchema.new db nm cols).addColumns seq) := by
  have h := addColumns_inv (new_inv db nm cols hnd) seq
  exact ⟨h.2, indexConsistent_lookup h.2⟩

/-- Concrete columns for the witnesses. -/
def colsW : List TableColumn :=
  [⟨1, "time", ColumnType.Time, Encoding.Default⟩,
   ⟨2, "region", ColumnType.Tag, Encoding.Default⟩]

def seqW : List TableColumn :=
  [⟨3, "temperature", ColumnType.Field ValueType.Float, Encoding.Default⟩,
   ⟨3, "temperature", ColumnType.Field ValueType.Float, Encoding.Default⟩]

def schemaW : TskvTableSchema := (TskvTableSchema.new "public" "sensor" colsW).addColumns seqW

theorem tskv_index_consistent_witness :
    (colsW.map TableColumn.name).Nodup ∧
    IndexConsistent schemaW ∧ ColumnLookupCorrect schemaW :=
  ⟨by decide,
   (tskv_index_consistent "public" "sensor" colsW seqW (by decide)).1,
   (tskv_index_consistent "public" "sensor" colsW seqW (by decide)).2⟩

/-! ## Claim C6 — `add_column` is idempotent by name -/

/-- Every listed column's name is a key of the index (holds for every schema
the public constructors can produce, whatever the names). -/
def KeyCoherent (s : TskvTableSchema) : Prop :=
  ∀ c ∈ s.columns, (hmGet s.columns_index c.name).isSome = true

theorem new_keyCoherent (db nm : String) (cols : List TableColumn) :
    KeyCoherent (TskvTableSchema.new db nm cols) := by
  intro c hc
  exact hmGet_indexByFrom_isSome TableColumn.name cols [] 0 c.name
    (Or.inl (List.mem_map_of_mem TableColumn.name hc))

theorem add_column_keyCoherent {s : TskvTableSchema} (h : KeyCoherent s)
    (c : TableColumn) : KeyCoherent (s.add_column c) := by
  cases hg : hmGet s.columns_index c.name with
  | some v =>
    have hs' : s.add_column c = s := by
      unfold TskvTableSchema.add_column
      rw [hg]
    rw [hs']
    exact h
  | none =>
    have hs' : s.add_column c =
        { s with columns := s.columns ++ [c],
                 columns_index := hmInsert s.columns_index c.name s.columns.length } := by
      unfold TskvTableSchema.add_column
      rw [hg]
    rw [hs']
    intro col hcol
    rcases List.mem_append.mp hcol with hmem | hmem
    · exact hmGet_hmInsert_isSome _ _ _ _ (h col hmem)
    · have hcc : col = c := by simpa using hmem
      subst hcc
      rw [hmGet_hmInsert_self]
      rfl

theorem addColumns_keyCoherent {s : TskvTableSchema} (h : KeyCoherent s)
    (seq : List TableColumn) : KeyCoherent (s.addColumns seq) := by
  induction seq generalizing s with
  | nil => exact h
  | cons c rest ih =>
    show KeyCoherent ((s.add_column c).addColumns rest)
    exact ih (add_column_keyCoherent h c)

/-- **C6.**  On any schema built by the public constructors, adding a column
whose name is already present changes nothing at all: the column list, its
length, the existing column's contents and position, and the name index are
exactly as before. -/
theorem add_column_existing_noop (db nm : String) (cols seq : List TableColumn)
    (c : TableColumn)
    (hex : ∃ col ∈ ((TskvTableSchema.new db nm cols).addColumns seq).columns,
      col.name = c.name) :
    ((TskvTableSchema.new db nm cols).addColumns seq).add_column c =
      (TskvTableSchema.new db nm cols).addColumns seq := by
  obtain ⟨col, hmem, hname⟩ := hex
  have hkc := addColumns_keyCoherent (new_keyCoherent db nm cols) seq
  have hsome := hkc col hmem
  rw [hname] at hsome
  obtain ⟨v, hv⟩ := Option.isSome_iff_exists.mp hsome
  unfold TskvTableSchema.add_column
  rw [hv]

def colW : TableColumn := ⟨9, "region", ColumnType.Field ValueType.Integer, ⟨1⟩⟩

theorem add_column_existing_noop_witness :
    (∃ col ∈ ((TskvTableSchema.new "public" "sensor" colsW).addColumns seqW).columns,
      col.name = colW.name) ∧
    ((TskvTableSchema.new "public" "sensor" colsW).addColumns seqW).add_column colW =
      (TskvTableSchema.new "public" "sensor" colsW).addColumns seqW :=
  ⟨by decide, add_column_existing_noop "public" "sensor" colsW seqW colW (by decide)⟩

/-! ## Claim C7 — `fields_id` -/

theorem isFieldColumn_is_field (c : TableColumn) :
    isFieldColumn c = c.column_type.is_field := by
  obtain ⟨i, n, ct, e⟩ := c
  cases ct <;> rfl

/-- The claim's contract for `fields_id` on a schema with pairwise distinct
column ids: one entry per `Field(_)` column (tags and time excluded), the
positions are exactly `0..k-1` with `k = field_num`, position order matches
ascending column-id order, and the map is independent of append order. -/
def FieldsIdSpec (s : TskvTableSchema) : Prop :=
  (∀ k : Nat, (hmGet s.fields_id k).isSome = true ↔
      ∃ c ∈ s.columns, c.column_type.is_field = true ∧ c.id = k) ∧
  s.fields_id.length = s.field_num ∧
  s.field_num = (s.columns.filter (fun c => c.column_type.is_field)).length ∧
  s.fields_id.map Prod.snd = List.range s.field_num ∧
  (∀ (k₁ p₁ k₂ p₂ : Nat), hmGet s.fields_id k₁ = some p₁ →
    hmGet s.fields_id k₂ = some p₂ → (k₁ < k₂ ↔ p₁ < p₂)) ∧
  (∀ s₂ : TskvTableSchema, s.columns.Perm s₂.columns → s₂.fields_id = s.fields_id)

/-- **C7.**  On every schema with pairwise distinct column ids, `fields_id`
satisfies `FieldsIdSpec`. -/
theorem fields_id_spec (s : TskvTableSchema)
    (hnd : (s.columns.map TableColumn.id).Nodup) : FieldsIdSpec s := by
  set ans := (s.columns.filter isFieldColumn).map TableColumn.id with hans
  set sorted := List.insertionSort (· ≤ ·) ans with hsorted_def
  have hperm : sorted.Perm ans := List.perm_insertionSort _ ans
  have hsorted : sorted.Sorted (· ≤ ·) := List.sorted_insertionSort _ ans
  have hansnd : ans.Nodup := by
    have hsub : ans.Sublist (s.columns.map TableColumn.id) :=
      (List.filter_sublist s.columns).map TableColumn.id
    exact hnd.sublist hsub
  have hsortnd : sorted.Nodup := hperm.nodup_iff.mpr hansnd
  have hstrict : sorted.Sorted (· < ·) := hsorted.lt_of_le hsortnd
  have hfid : s.fields_id = indexByFrom id [] 0 sorted := rfl
  have hmapid : (sorted.map id).Nodup := by simpa using hsortnd
  have hlook : ∀ (k p : Nat), hmGet s.fields_id k = some p ↔
      ∃ hp : p < sorted.length, sorted.get ⟨p, hp⟩ = k := by
    intro k p
    rw [hfid, hmGet_indexByFrom id sorted [] 0 k hmapid]
    constructor
    · intro h
      cases hfind : findPosBy (fun a => decide (id a = k)) sorted with
      | none => rw [hfind] at h; simp [hmGet] at h
      | some j =>
        rw [hfind] at h
        simp only [Nat.zero_add, Option.some.injEq] at h
        subst h
        obtain ⟨hj, hfj⟩ := findPosBy_some _ sorted j hfind
        exact ⟨hj, by simpa using hfj⟩
    · rintro ⟨hp, hval⟩
      have hfj : (fun a => decide (id a = k)) (sorted.get ⟨p, hp⟩) = true := by
        simpa using hval
      have hbefore : ∀ (j : Nat) (hj : j < p),
          (fun a => decide (id a = k)) (sorted.get ⟨j, Nat.lt_trans hj hp⟩) = false := by
        intro j hj
        simp only [id_eq, decide_eq_false_iff_not]
        intro heq
        have hfin : (⟨j, Nat.lt_trans hj hp⟩ : Fin sorted.length) = ⟨p, hp⟩ :=
          hsortnd.get_inj_iff.mp (heq.trans hval.symm)
        have : j = p := by simpa using hfin
        omega
      rw [findPosBy_eq_some_of _ sorted p hp hfj hbefore]
      simp
  have hmem : ∀ k : Nat, (hmGet s.fields_id k).isSome = true ↔ k ∈ sorted := by
    intro k
    constructor
    · intro h
      obtain ⟨p, hp⟩ := Option.isSome_iff_exists.mp h
      obtain ⟨hpl, hval⟩ := (hlook k p).mp hp
      exact hval ▸ List.get_mem sorted p hpl
    · intro h
      obtain ⟨fi, hget⟩ := List.mem_iff_get.mp h
      rw [(hlook k fi.1).mpr ⟨fi.2, hget⟩]
      rfl
  have hfid2 : s.fields_id = enumPairsFrom id 0 sorted := by
    rw [hfid, indexByFrom_eq_append id sorted [] 0 hmapid (fun a _ => rfl)]
    simp
  have hlen : s.fields_id.length = sorted.length := by
    rw [hfid2, enumPairsFrom_length]
  have hanslen : sorted.length = ans.length := hperm.length_eq
  have hfnum : s.field_num = ans.length := by
    show s.columns.countP isFieldColumn = ans.length
    rw [List.countP_eq_length_filter, hans, List.length_map]
  have hfilter_eq : (s.columns.filter (fun c => c.column_type.is_field)).length
      = (s.columns.filter isFieldColumn).length := by
    have hfe : isFieldColumn = fun c => c.column_type.is_field :=
      funext isFieldColumn_is_field
    rw [hfe]
  refine ⟨?_, ?_, ?_, ?_, ?_, ?_⟩
  · intro k
    rw [hmem k]
    constructor
    · intro h
      have hk : k ∈ ans := hperm.mem_iff.mp h
      rw [hans] at hk
      obtain ⟨c, hcf, hcid⟩ := List.mem_map.mp hk
      obtain ⟨hcmem, hcfield⟩ := List.mem_filter.mp hcf
      exact ⟨c, hcmem, by rw [← isFieldColumn_is_field]; exact hcfield, hcid⟩
    · rintro ⟨c, hcmem, hcfield, hcid⟩
      apply hperm.mem_iff.mpr
      rw [hans, ← hcid]
      exact List.mem_map_of_mem _ (List.mem_filter.mpr
        ⟨hcmem, by rw [isFieldColumn_is_field]; exact hcfield⟩)
  · rw [hlen, hanslen, hfnum]
  · rw [hfnum, hans, List.length_map]
    exact hfilter_eq.symm
  · rw [hfid2, enumPairsFrom_map_snd, ← List.range_eq_range', hfnum, ← hanslen]
  · intro k₁ p₁ k₂ p₂ h₁ h₂
    obtain ⟨hp₁, hv₁⟩ := (hlook k₁ p₁).mp h₁
    obtain ⟨hp₂, hv₂⟩ := (hlook k₂ p₂).mp h₂
    have hmono := hstrict.get_strictMono
    constructor
    · intro hk
      rcases lt_trichotomy p₁ p₂ with h | h | h
      · exact h
      · exfalso
        subst h
        have hkk : k₁ = k₂ := hv₁.symm.trans hv₂
        omega
      · exfalso
        have hlt : sorted.get ⟨p₂, hp₂⟩ < sorted.get ⟨p₁, hp₁⟩ :=
          hmono (by simpa using h)
        rw [hv₁, hv₂] at hlt
        omega
    · intro hp
      have hlt : sorted.get ⟨p₁, hp₁⟩ < sorted.get ⟨p₂, hp₂⟩ :=
        hmono (by simpa using hp)
      rw [hv₁, hv₂] at hlt
      exact hlt
  · intro s₂ hp
    have hansp : ((s₂.columns.filter isFieldColumn).map TableColumn.id).Perm ans := by
      rw [hans]
      exact ((hp.filter isFieldColumn).map TableColumn.id).symm
    have hsorted₂ : (List.insertionSort (· ≤ ·)
        ((s₂.columns.filter isFieldColumn).map TableColumn.id)).Sorted (· ≤ ·) :=
      List.sorted_insertionSort _ _
    have heq : List.insertionSort (· ≤ ·)
        ((s₂.columns.filter isFieldColumn).map TableColumn.id) = sorted := by
      refine List.eq_of_perm_of_sorted ?_ hsorted₂ hsorted
      exact (List.perm_insertionSort _ _).trans (hansp.trans hperm.symm)
    show indexByFrom id [] 0 (List.insertionSort (· ≤ ·)
        ((s₂.columns.filter isFieldColumn).map TableColumn.id)) = s.fields_id
    rw [heq, hfid]

theorem fields_id_spec_witness :
    (schemaW.columns.map TableColumn.id).Nodup ∧ FieldsIdSpec schemaW :=
  ⟨by decide, fields_id_spec schemaW (by decide)⟩

end CnosDB
